import Mathlib

/-!
A formal model of `src/bot.py`: a chat bot that keeps a mapping from role
ids to display-name prefixes, resolves a member's highest-positioned
role that has a configured prefix, and rewrites nicknames as
"prefix | base name".  Strings are modelled as lists of characters,
Python dicts as association lists, and the external platform's
nickname-edit call as an oracle returning one of the outcomes the code
catches (success, Forbidden, HTTPException).
-/

namespace PrefixBot

/-- Strings are modelled as lists of characters. -/
abbrev Str := List Char

/-- The literal separator " | " used by the nickname composer. -/
def sepStr : Str := [' ', '|', ' ']

/-- The mapping from string-encoded role ids to prefix strings
(the Python dict `role_prefixes`), as an association list. -/
abbrev PrefixMapping := List (Str × Str)

/-- Python `dict.get`: the first binding of the key, if any. -/
def lookup : PrefixMapping → Str → Option Str
  | [], _ => none
  | (k, v) :: rest, key => if k = key then some v else lookup rest key

/-- Python `key in dict`. -/
def hasKey (P : PrefixMapping) (k : Str) : Bool :=
  (lookup P k).isSome

/-- Python `dict.pop k`: remove the binding of `k`. -/
def eraseKey (P : PrefixMapping) (k : Str) : PrefixMapping :=
  P.filter (fun p => !(p.1 == k))

/-- Python `str(n)` for a natural number (role ids are encoded in
decimal when used as mapping keys, `str(role.id)` in the source). -/
def natKey (n : Nat) : Str := (Nat.repr n).toList

/-- A guild role: identified by `id`, carries a `name` and an integer
`position` that determines priority (higher position = higher
priority). -/
structure Role where
  id : Nat
  name : Str
  position : Nat
deriving DecidableEq

/-- A guild member: an ordered list of roles and a display name.  The
bot only reads these two fields and writes the nickname. -/
structure Member where
  roles : List Role
  display_name : Str
deriving DecidableEq

/-- A guild, as the list of its roles (`guild.get_role` looks a role up
by id). -/
structure Guild where
  roles : List Role
deriving DecidableEq

/-- Model of `guild.get_role(rid)`: the guild role with the given id, or none. -/
def Guild.get_role (g : Guild) (rid : Nat) : Option Role :=
  g.roles.find? (fun r => r.id == rid)

/-- Model of `get_display_roles(member)` from the source: all of the member's
roles `r` such that `str(r.id)` is a key of the mapping. -/
def get_display_roles (P : PrefixMapping) (m : Member) : List Role :=
  m.roles.filter (fun r => hasKey P (natKey r.id))

/-- Python `max(roles, key=lambda r: r.position)`: scan the list keeping
the current maximum, replacing it only on a strictly greater position —
so the first element attaining the maximum wins. -/
def pyMaxBy (best : Role) : List Role → Role
  | [] => best
  | r :: rest => pyMaxBy (if best.position < r.position then r else best) rest

/-- Model of `get_highest_display_role(member)` from the source: `None` when no
role has a configured prefix, otherwise the maximum by position. -/
def get_highest_display_role (P : PrefixMapping) (m : Member) : Option Role :=
  match get_display_roles P m with
  | [] => none
  | r :: rs => some (pyMaxBy r rs)

/-- Python `sep in s` (substring containment), for a fixed separator:
true iff `sep` occurs starting at some position of `s`. -/
def containsSub (sep : Str) : Str → Bool
  | [] => false
  | c :: rest => sep.isPrefixOf (c :: rest) || containsSub sep rest

/-- Python `s.split(sep, 1)[1]`: everything after the first occurrence
of `sep` (and `[]` when there is none). -/
def afterSub (sep : Str) : Str → Str
  | [] => []
  | c :: rest =>
    if sep.isPrefixOf (c :: rest) then (c :: rest).drop sep.length
    else afterSub sep rest

/-- The number of positions of `s` at which `sep` occurs. -/
def countSub (sep : Str) : Str → Nat
  | [] => 0
  | c :: rest =>
    (if sep.isPrefixOf (c :: rest) then 1 else 0) + countSub sep rest

/-- The base-name stripping step of `apply_prefix`:
`if " | " in base_name: base_name = base_name.split(" | ", 1)[1]`. -/
def stripPrefixSeg (name : Str) : Str :=
  if containsSub sepStr name then afterSub sepStr name else name

/-- The nickname composition of `apply_prefix` (and, inlined, of
`TagSelect.callback`): `f"{prefix} | {base_name}"` after stripping. -/
def composeNick (base pfx : Str) : Str :=
  pfx ++ sepStr ++ stripPrefixSeg base

/-- The outcomes of the external `member.edit(nick=...)` call that the
source distinguishes: success, `discord.Forbidden`, or
`discord.HTTPException`. -/
inductive EditOutcome
  | success
  | forbidden
  | httpError
deriving DecidableEq

/-- What `apply_prefix` did: skipped (missing or falsy prefix — it
returns before editing), or attempted an edit to the composed nickname
with some outcome.  Both error outcomes are caught inside
`apply_prefix`, so it returns in every case. -/
inductive ApplyResult
  | skipped
  | attempted (nick : Str) (outcome : EditOutcome)
deriving DecidableEq

/-- Model of `apply_prefix(member, role)` from the source, with the platform's
edit call modelled by the oracle `edit`.  `if not prefix: return`
skips both a missing key and an empty-string prefix. -/
def apply_prefix (P : PrefixMapping) (edit : Member → Str → EditOutcome)
    (m : Member) (role : Role) : ApplyResult :=
  match lookup P (natKey role.id) with
  | none => ApplyResult.skipped
  | some pfx =>
    if pfx = [] then ApplyResult.skipped
    else ApplyResult.attempted (composeNick m.display_name pfx)
        (edit m (composeNick m.display_name pfx))

/-- The `updateall` command body: fold over the guild's members; for
each member with a highest display role, call `apply_prefix` and
increment the count.  Returns the list of per-member apply results and
the reported count. -/
def updateall (P : PrefixMapping) (edit : Member → Str → EditOutcome)
    (members : List Member) : List (Member × ApplyResult) × Nat :=
  members.foldl
    (fun acc mem =>
      match get_highest_display_role P mem with
      | none => acc
      | some role => (acc.1 ++ [(mem, apply_prefix P edit mem role)], acc.2 + 1))
    ([], 0)

/-- The reply sent by the `removeprefix` command. -/
inductive RemoveReply
  | removed (roleName : Str)
  | noPrefixNotice
deriving DecidableEq

/-- The effect of one `removeprefix` invocation: the mapping afterwards,
whether `save_prefixes` was called, and the reply sent. -/
structure RemoveResult where
  mapping : PrefixMapping
  persisted : Bool
  reply : RemoveReply
deriving DecidableEq

/-- The `removeprefix` command body: pop and persist when the key is
present, otherwise reply "This role has no prefix." leaving the
mapping untouched. -/
def removeprefix (P : PrefixMapping) (role : Role) : RemoveResult :=
  if hasKey P (natKey role.id) then
    ⟨eraseKey P (natKey role.id), true, RemoveReply.removed role.name⟩
  else
    ⟨P, false, RemoveReply.noPrefixNotice⟩

/-- The `on_member_update` event handler: no-op when the role lists are
equal, otherwise apply the highest display role's prefix when one
exists.  `none` means no nickname mutation was attempted. -/
def on_member_update (P : PrefixMapping) (edit : Member → Str → EditOutcome)
    (before after : Member) : Option ApplyResult :=
  if before.roles = after.roles then none
  else
    match get_highest_display_role P after with
    | none => none
    | some role => some ( apply_prefix P edit after role)

/-- The state of the prefix store as the code observes it.
`env` models `os.getenv("ROLE_PREFIXES")` followed by `json.loads`:
`none` when the variable is absent or empty (falsy), `some none` when
it is present but fails to parse, `some (some m)` when it parses to the
mapping `m`.  `file` models the persisted JSON file the same way:
`none` missing, `some none` unreadable as a mapping, `some (some m)`
holding `m`. -/
structure StoreState where
  env : Option (Option PrefixMapping)
  file : Option (Option PrefixMapping)
deriving DecidableEq

/-- Model of `load_prefixes()` from the source: return the parsed environment
value when it parses (the bare `except: pass` swallows the failure),
else fall back to the file: missing file gives the empty mapping, and a
file `json.load` failure propagates (modelled as `Except.error`). -/
def load_prefixes (s : StoreState) : Except Unit PrefixMapping :=
  match s.env with
  | some (some m) => Except.ok m
  | _ =>
    match s.file with
    | none => Except.ok []
    | some (some m) => Except.ok m
    | some none => Except.error ()

/-- Model of `save_prefixes(data)` from the source: overwrite the persisted file
with the serialization of `data` (the `json.dump`/`json.load` pair of
the standard library round-trips a string-to-string object, so the file
is modelled at the parsed level). -/
def save_prefixes (m : PrefixMapping) (s : StoreState) : StoreState :=
  ⟨s.env, some (some m)⟩

/-- The value carried by the selected option of the tag menu: the
literal strings "none" and "clear", or a decimal role id. -/
inductive Choice
  | cnone
  | cclear
  | crole (rid : Nat)
deriving DecidableEq

/-- What one `TagSelect.callback` invocation did.  Every message branch
in the source is ephemeral. -/
inductive CallbackResult
  | noGuild
  | noPrefixes
  | cleared (outcome : EditOutcome)
  | rejectedRoleGone
  | rejectedNotConfigured
  | editedNick (nick : Str) (outcome : EditOutcome)
deriving DecidableEq

/-- Model of `TagSelect.callback` from the source: guard on guild context, the
"none" and "clear" values, then for a role id re-check at interaction
time that the role exists, that the user still holds it
(`if not role or role not in interaction.user.roles`), and that it
still has a truthy configured prefix, before editing the nickname. -/
def TagSelect.callback (P : PrefixMapping) (g : Option Guild) (user : Member)
    (edit : Member → Str → EditOutcome) (clearOutcome : EditOutcome)
    (choice : Choice) : CallbackResult :=
  match g with
  | none => CallbackResult.noGuild
  | some guild =>
    match choice with
    | Choice.cnone => CallbackResult.noPrefixes
    | Choice.cclear => CallbackResult.cleared clearOutcome
    | Choice.crole rid =>
      match guild.get_role rid with
      | none => CallbackResult.rejectedRoleGone
      | some role =>
        if role ∈ user.roles then
          match lookup P (natKey role.id) with
          | none => CallbackResult.rejectedNotConfigured
          | some pfx =>
            if pfx = [] then CallbackResult.rejectedNotConfigured
            else CallbackResult.editedNick (composeNick user.display_name pfx)
                (edit user (composeNick user.display_name pfx))
        else CallbackResult.rejectedRoleGone

/-! ### Helper lemmas -/

theorem pyMaxBy_mem (l : List Role) : ∀ b : Role, pyMaxBy b l ∈ b :: l := by
  induction l with
  | nil => intro b; simp [pyMaxBy]
  | cons r rest ih =>
    intro b
    have h := ih (if b.position < r.position then r else b)
    rw [pyMaxBy]
    rcases List.mem_cons.mp h with h | h
    · rw [h]
      split
      · exact List.mem_cons_of_mem _ (List.mem_cons_self _ _)
      · exact List.mem_cons_self _ _
    · exact List.mem_cons_of_mem _ (List.mem_cons_of_mem _ h)

theorem pyMaxBy_ge (l : List Role) :
    ∀ b : Role, ∀ x ∈ b :: l, x.position ≤ (pyMaxBy b l).position := by
  induction l with
  | nil =>
    intro b x hx
    rcases List.mem_cons.mp hx with h | h
    · rw [h]; exact Nat.le_refl _
    · exact absurd h (List.not_mem_nil x)
  | cons r rest ih =>
    intro b x hx
    have hb : b.position ≤ (if b.position < r.position then r else b).position := by
      split <;> omega
    have hr : r.position ≤ (if b.position < r.position then r else b).position := by
      split <;> omega
    have hbest := ih (if b.position < r.position then r else b)
      (if b.position < r.position then r else b) (List.mem_cons_self _ _)
    rw [pyMaxBy]
    rcases List.mem_cons.mp hx with h | h
    · rw [h]; exact Nat.le_trans hb hbest
    · rcases List.mem_cons.mp h with h2 | h2
      · rw [h2]; exact Nat.le_trans hr hbest
      · exact ih _ x (List.mem_cons_of_mem _ h2)

theorem get_highest_eq_none_iff (P : PrefixMapping) (m : Member) :
    get_highest_display_role P m = none ↔ get_display_roles P m = [] := by
  rw [get_highest_display_role]
  cases get_display_roles P m <;> simp

theorem get_highest_mem (P : PrefixMapping) (m : Member) (r : Role)
    (h : get_highest_display_role P m = some r) : r ∈ get_display_roles P m := by
  rw [get_highest_display_role] at h
  cases hL : get_display_roles P m with
  | nil => rw [hL] at h; simp at h
  | cons r0 rs =>
    rw [hL] at h
    simp only [Option.some.injEq] at h
    rw [← h]
    exact pyMaxBy_mem rs r0

/-! ### Claim C1 -/

/-- Claim C1: `get_highest_display_role` returns none exactly when no role of
the member has its string-encoded id as a key of the mapping, and whenever the
member has an eligible role whose position is strictly maximal among the
eligible roles, that role is returned — eligibility depends only on key
membership, not on the positions of non-eligible roles. -/
theorem get_highest_display_role_spec (P : PrefixMapping) (m : Member) :
    (get_highest_display_role P m = none ↔
      ∀ r ∈ m.roles, hasKey P (natKey r.id) = false)
    ∧ (∀ r ∈ m.roles, hasKey P (natKey r.id) = true →
        (∀ r2 ∈ m.roles, hasKey P (natKey r2.id) = true →
          r2 = r ∨ r2.position < r.position) →
        get_highest_display_role P m = some r) := by
  constructor
  · rw [get_highest_eq_none_iff]
    rw [get_display_roles, List.filter_eq_nil_iff]
    constructor
    · intro h r hr
      have := h r hr
      simpa using this
    · intro h r hr
      simp [h r hr]
  · intro r hr hk hmax
    have hrL : r ∈ get_display_roles P m := by
      rw [get_display_roles, List.mem_filter]
      exact ⟨hr, hk⟩
    cases hL : get_display_roles P m with
    | nil => rw [hL] at hrL; exact absurd hrL (List.not_mem_nil r)
    | cons r0 rs =>
      rw [get_highest_display_role, hL]
      show some (pyMaxBy r0 rs) = some r
      have hxmem : pyMaxBy r0 rs ∈ get_display_roles P m := by
        rw [hL]; exact pyMaxBy_mem rs r0
      have hxroles : pyMaxBy r0 rs ∈ m.roles :=
        (List.mem_filter.mp hxmem).1
      have hxkey : hasKey P (natKey (pyMaxBy r0 rs).id) = true :=
        (List.mem_filter.mp hxmem).2
      have hge : r.position ≤ (pyMaxBy r0 rs).position := by
        apply pyMaxBy_ge rs r0
        rw [← hL]; exact hrL
      rcases hmax (pyMaxBy r0 rs) hxroles hxkey with he | hlt
      · rw [he]
      · omega

/-- Witness for C1: the spec scenario — mapping `{"111": "💎"}`, member with
role 111 at position 5 and role 222 (no prefix) at position 10; the resolver
returns role 111 despite its lower position. -/
theorem get_highest_display_role_spec_witness :
    get_highest_display_role [("111".toList, "💎".toList)]
      ⟨[⟨111, "vip".toList, 5⟩, ⟨222, "other".toList, 10⟩], "Alice".toList⟩
      = some ⟨111, "vip".toList, 5⟩ :=
  (get_highest_display_role_spec [("111".toList, "💎".toList)]
      ⟨[⟨111, "vip".toList, 5⟩, ⟨222, "other".toList, 10⟩], "Alice".toList⟩).2
    ⟨111, "vip".toList, 5⟩ (by decide) (by decide) (by decide)

/-! ### Separator lemmas (for C2 and C3) -/

theorem containsSub_iff (sep : Str) (hsep : sep ≠ []) (s : Str) :
    containsSub sep s = true ↔ ∃ j, sep <+: s.drop j := by
  induction s with
  | nil =>
    constructor
    · intro hc; simp [containsSub] at hc
    · rintro ⟨j, hj⟩
      rw [List.drop_nil] at hj
      exact absurd (List.prefix_nil.mp hj) hsep
  | cons c rest ih =>
    rw [containsSub, Bool.or_eq_true]
    constructor
    · rintro (h1 | h2)
      · exact ⟨0, by simpa [List.isPrefixOf_iff_prefix] using h1⟩
      · obtain ⟨j, hj⟩ := ih.mp h2
        exact ⟨j + 1, by simpa using hj⟩
    · rintro ⟨j, hj⟩
      cases j with
      | zero =>
        left
        rw [List.drop_zero] at hj
        exact List.isPrefixOf_iff_prefix.mpr hj
      | succ j =>
        right
        rw [List.drop_succ_cons] at hj
        exact ih.mpr ⟨j, hj⟩

theorem afterSub_first (sep : Str) (s : Str) (hc : containsSub sep s = true) :
    ∃ pre, s = pre ++ sep ++ afterSub sep s
      ∧ ∀ j, sep <+: s.drop j → pre.length ≤ j := by
  induction s with
  | nil => simp [containsSub] at hc
  | cons c rest ih =>
    by_cases hp : sep.isPrefixOf (c :: rest) = true
    · refine ⟨[], ?_, ?_⟩
      · obtain ⟨t, ht⟩ := List.isPrefixOf_iff_prefix.mp hp
        rw [afterSub, if_pos hp, List.nil_append, ← ht, List.drop_left]
      · intro j _
        simp
    · have hc2 : containsSub sep rest = true := by
        rw [containsSub, Bool.or_eq_true] at hc
        rcases hc with h | h
        · exact absurd h hp
        · exact h
      obtain ⟨pre, heq, hmin⟩ := ih hc2
      refine ⟨c :: pre, ?_, ?_⟩
      · rw [afterSub, if_neg hp]
        conv_lhs => rw [heq]
        simp
      · intro j hj
        cases j with
        | zero =>
          rw [List.drop_zero] at hj
          exact absurd (List.isPrefixOf_iff_prefix.mpr hj) hp
        | succ j =>
          rw [List.drop_succ_cons] at hj
          have := hmin j hj
          simpa using Nat.succ_le_succ this

/-! ### Claim C2 -/

/-- Claim C2: nickname composition returns exactly `prefix ++ " | " ++ S`
where, when the base name contains the literal separator `" | "`, `S` is the
substring after the first occurrence of the separator (witnessed by a
decomposition `base = pre ++ " | " ++ S` with no occurrence starting before
`pre.length`), and `S` is the base name unchanged otherwise. -/
theorem composeNick_spec (base pfx : Str) :
    (containsSub sepStr base = true ↔ ∃ j, sepStr <+: base.drop j)
    ∧ (containsSub sepStr base = false →
        composeNick base pfx = pfx ++ sepStr ++ base)
    ∧ (containsSub sepStr base = true →
        composeNick base pfx = pfx ++ sepStr ++ stripPrefixSeg base
        ∧ ∃ pre, base = pre ++ sepStr ++ stripPrefixSeg base
            ∧ ∀ j, sepStr <+: base.drop j → pre.length ≤ j) := by
  refine ⟨containsSub_iff sepStr (by decide) base, ?_, ?_⟩
  · intro h
    rw [composeNick, stripPrefixSeg, if_neg (by simp [h])]
  · intro h
    refine ⟨rfl, ?_⟩
    have ha := afterSub_first sepStr base h
    rw [stripPrefixSeg, if_pos h]
    exact ha

/-- Witness for C2: the spec scenario — display name `"💎 | Alice"` with new
prefix `"👑"` composes to exactly `"👑 | Alice"`. -/
theorem composeNick_spec_witness :
    composeNick "💎 | Alice".toList "👑".toList = "👑 | Alice".toList := by
  have h := (composeNick_spec "💎 | Alice".toList "👑".toList).2.2 (by decide)
  rw [h.1]
  decide

/-! ### Re-composition lemmas (for C3) -/

theorem sepStr_not_prefix_cons (c : Char) (p1 S : Str)
    (h1 : containsSub sepStr (c :: p1) = false)
    (h2 : ¬ [' ', '|'] <:+ (c :: p1)) :
    ¬ sepStr <+: (c :: (p1 ++ sepStr ++ S)) := by
  intro hpre
  rcases p1 with _ | ⟨y, _ | ⟨z, p1t⟩⟩
  · have hpre2 : (' ' :: '|' :: ' ' :: []) <+: (c :: ' ' :: '|' :: ' ' :: S) := hpre
    rw [List.cons_prefix_cons, List.cons_prefix_cons] at hpre2
    exact absurd hpre2.2.1 (by decide)
  · have hpre2 : (' ' :: '|' :: ' ' :: []) <+: (c :: y :: ' ' :: '|' :: ' ' :: S) := hpre
    rw [List.cons_prefix_cons, List.cons_prefix_cons] at hpre2
    exact h2 ⟨[], by rw [List.nil_append, hpre2.1, hpre2.2.1]⟩
  · have hpre2 : (' ' :: '|' :: ' ' :: []) <+:
        (c :: y :: z :: (p1t ++ sepStr ++ S)) := hpre
    rw [List.cons_prefix_cons, List.cons_prefix_cons, List.cons_prefix_cons] at hpre2
    have hpp : sepStr <+: (c :: y :: z :: p1t) := by
      rw [← hpre2.1, ← hpre2.2.1, ← hpre2.2.2.1]
      exact ⟨p1t, rfl⟩
    have hct : containsSub sepStr (c :: y :: z :: p1t) = true := by
      rw [containsSub, List.isPrefixOf_iff_prefix.mpr hpp, Bool.true_or]
    simp [hct] at h1

theorem sepStr_not_isPrefixOf_cons (c : Char) (p1 S : Str)
    (h1 : containsSub sepStr (c :: p1) = false)
    (h2 : ¬ [' ', '|'] <:+ (c :: p1)) :
    sepStr.isPrefixOf (c :: (p1 ++ sepStr ++ S)) = false := by
  rw [Bool.eq_false_iff]
  intro ht
  exact sepStr_not_prefix_cons c p1 S h1 h2 (List.isPrefixOf_iff_prefix.mp ht)

theorem containsSub_sep_append (S : Str) : containsSub sepStr (sepStr ++ S) = true := by
  show containsSub sepStr (' ' :: '|' :: ' ' :: S) = true
  have hp : sepStr <+: (' ' :: '|' :: ' ' :: S) := ⟨S, rfl⟩
  rw [containsSub, List.isPrefixOf_iff_prefix.mpr hp, Bool.true_or]

theorem afterSub_sep_append (S : Str) : afterSub sepStr (sepStr ++ S) = S := by
  show afterSub sepStr (' ' :: '|' :: ' ' :: S) = S
  have hp : sepStr <+: (' ' :: '|' :: ' ' :: S) := ⟨S, rfl⟩
  rw [afterSub, if_pos (List.isPrefixOf_iff_prefix.mpr hp)]
  rfl

theorem afterSub_sandwich (S : Str) :
    ∀ p1 : Str, containsSub sepStr p1 = false → ¬ [' ', '|'] <:+ p1 →
      containsSub sepStr (p1 ++ sepStr ++ S) = true
      ∧ afterSub sepStr (p1 ++ sepStr ++ S) = S := by
  intro p1
  induction p1 with
  | nil =>
    intro _ _
    exact ⟨containsSub_sep_append S, afterSub_sep_append S⟩
  | cons c p1t ih =>
    intro h1 h2
    have h1t : containsSub sepStr p1t = false := by
      rw [containsSub, Bool.or_eq_false_iff] at h1
      exact h1.2
    have h2t : ¬ [' ', '|'] <:+ p1t :=
      fun hs => h2 (hs.trans (List.suffix_cons c p1t))
    have hnp := sepStr_not_isPrefixOf_cons c p1t S h1 h2
    obtain ⟨ihc, iha⟩ := ih h1t h2t
    constructor
    · show containsSub sepStr (c :: (p1t ++ sepStr ++ S)) = true
      rw [containsSub, hnp, Bool.false_or]
      exact ihc
    · show afterSub sepStr (c :: (p1t ++ sepStr ++ S)) = S
      rw [afterSub, if_neg (by rw [hnp]; exact Bool.false_ne_true)]
      exact iha

theorem stripPrefixSeg_sandwich (p1 S : Str)
    (h1 : containsSub sepStr p1 = false) (h2 : ¬ [' ', '|'] <:+ p1) :
    stripPrefixSeg (p1 ++ sepStr ++ S) = S := by
  obtain ⟨hc, ha⟩ := afterSub_sandwich S p1 h1 h2
  rw [stripPrefixSeg, if_pos hc]
  exact ha

theorem countSub_eq_zero (sep s : Str) (h : containsSub sep s = false) :
    countSub sep s = 0 := by
  induction s with
  | nil => rfl
  | cons c rest ih =>
    rw [containsSub, Bool.or_eq_false_iff] at h
    simp [countSub, h.1, ih h.2]

theorem sepStr_not_isPrefixOf_bar (S : Str) :
    sepStr.isPrefixOf ('|' :: S) = false := by
  have hb : (' ' == '|') = false := by decide
  show ([' ', '|', ' ']).isPrefixOf ('|' :: S) = false
  simp [List.isPrefixOf, hb]

theorem sepStr_isPrefixOf_space (S : Str) (h : ¬ ['|', ' '] <+: S) :
    sepStr.isPrefixOf (' ' :: S) = false := by
  show ([' ', '|', ' ']).isPrefixOf (' ' :: S) = false
  rw [Bool.eq_false_iff]
  intro ht
  have hp := List.isPrefixOf_iff_prefix.mp ht
  rw [List.cons_prefix_cons] at hp
  exact h hp.2

theorem countSub_sandwich (S : Str)
    (h3 : containsSub sepStr S = false) (h4 : ¬ ['|', ' '] <+: S) :
    ∀ p2 : Str, containsSub sepStr p2 = false → ¬ [' ', '|'] <:+ p2 →
      countSub sepStr (p2 ++ sepStr ++ S) = 1 := by
  intro p2
  induction p2 with
  | nil =>
    intro _ _
    show countSub sepStr (' ' :: '|' :: ' ' :: S) = 1
    have ha : sepStr.isPrefixOf (' ' :: '|' :: ' ' :: S) = true :=
      List.isPrefixOf_iff_prefix.mpr ⟨S, rfl⟩
    simp [countSub, ha, sepStr_not_isPrefixOf_bar, sepStr_isPrefixOf_space S h4,
      countSub_eq_zero sepStr S h3]
  | cons c p2t ih =>
    intro h1 h2
    have h1t : containsSub sepStr p2t = false := by
      rw [containsSub, Bool.or_eq_false_iff] at h1
      exact h1.2
    have h2t : ¬ [' ', '|'] <:+ p2t :=
      fun hs => h2 (hs.trans (List.suffix_cons c p2t))
    have hnp := sepStr_not_isPrefixOf_cons c p2t S h1 h2
    show countSub sepStr (c :: (p2t ++ sepStr ++ S)) = 1
    rw [countSub, hnp, if_neg Bool.false_ne_true, ih h1t h2t]

/-! ### Claim C3 -/

/-- Claim C3 is false as stated: re-applying composition with an inner prefix
`p1 = "a | b"` that itself contains the separator yields
`"c | b | Alice"` — two separator occurrences, not one, and not equal to
`"{p2} | {stripped(base)}" = "c | Alice"`. -/
theorem composeNick_recompose_counterexample :
    composeNick (composeNick "Alice".toList "a | b".toList) "c".toList
      = "c | b | Alice".toList
    ∧ composeNick (composeNick "Alice".toList "a | b".toList) "c".toList
      ≠ "c".toList ++ sepStr ++ stripPrefixSeg "Alice".toList
    ∧ countSub sepStr
        (composeNick (composeNick "Alice".toList "a | b".toList) "c".toList) = 2 :=
  ⟨by decide, by decide, by decide⟩

/-- Claim C3 (amended): provided the inner prefix `p1` neither contains the
separator `" | "` nor ends with `" |"`, re-composition strips exactly the
previously applied prefix segment:
`compose(compose(base, p1), p2) = "{p2} | {stripped(base)}"`; and when
moreover `p2` neither contains the separator nor ends with `" |"` and the
stripped base neither contains the separator nor starts with `"| "`, the
result contains exactly one occurrence of `" | "`. -/
theorem composeNick_recompose (base p1 p2 : Str)
    (h1 : containsSub sepStr p1 = false) (h2 : ¬ [' ', '|'] <:+ p1) :
    composeNick (composeNick base p1) p2 = p2 ++ sepStr ++ stripPrefixSeg base
    ∧ (containsSub sepStr p2 = false → ¬ [' ', '|'] <:+ p2 →
        containsSub sepStr (stripPrefixSeg base) = false →
        ¬ ['|', ' '] <+: stripPrefixSeg base →
        countSub sepStr (composeNick (composeNick base p1) p2) = 1) := by
  have key : stripPrefixSeg (p1 ++ sepStr ++ stripPrefixSeg base)
      = stripPrefixSeg base :=
    stripPrefixSeg_sandwich p1 (stripPrefixSeg base) h1 h2
  constructor
  · show p2 ++ sepStr ++ stripPrefixSeg (p1 ++ sepStr ++ stripPrefixSeg base)
      = p2 ++ sepStr ++ stripPrefixSeg base
    rw [key]
  · intro g1 g2 g3 g4
    show countSub sepStr
      (p2 ++ sepStr ++ stripPrefixSeg (p1 ++ sepStr ++ stripPrefixSeg base)) = 1
    rw [key]
    exact countSub_sandwich (stripPrefixSeg base) g3 g4 p2 g1 g2

/-- Witness for the amended C3: base `"💎 | Alice"`, `p1 = "👑"`,
`p2 = "⭐"` — re-composition yields `"⭐ | Alice"` with exactly one
separator occurrence. -/
theorem composeNick_recompose_witness :
    composeNick (composeNick "💎 | Alice".toList "👑".toList) "⭐".toList
      = "⭐ | Alice".toList
    ∧ countSub sepStr
        (composeNick (composeNick "💎 | Alice".toList "👑".toList) "⭐".toList) = 1 := by
  have h := composeNick_recompose "💎 | Alice".toList "👑".toList "⭐".toList
    (by decide) (by decide)
  refine ⟨?_, h.2 (by decide) (by decide) (by decide) (by decide)⟩
  rw [h.1]
  decide

/-! ### Claim C4 -/

/-- Claim C4: `load_prefixes` first returns the environment value whenever it
parses; for every environment value that is absent (or empty, hence falsy) or
fails to parse it falls back to the persisted file without raising — returning
the file's mapping, and the empty mapping when the file is missing.  (The
persisted file itself is a JSON object per the spec's data model, expressed by
the hypothesis that it is not unreadable.) -/
theorem load_prefixes_spec (s : StoreState) :
    (∀ m, s.env = some (some m) → load_prefixes s = Except.ok m)
    ∧ ((s.env = none ∨ s.env = some none) → s.file ≠ some none →
        load_prefixes s = Except.ok ((s.file.bind id).getD [])) := by
  rcases s with ⟨env, file⟩
  constructor
  · intro m h
    simp only at h
    rw [h]
    rfl
  · intro henv hfile
    simp only at henv hfile
    rcases file with _ | (_ | mf)
    · rcases henv with h | h <;> rw [h] <;> rfl
    · exact absurd rfl hfile
    · rcases henv with h | h <;> rw [h] <;> rfl

/-- Witness for C4: environment present but unparseable, file holding
`{"111": "💎"}` — load falls back to the file contents. -/
theorem load_prefixes_spec_witness :
    load_prefixes ⟨some none, some (some [("111".toList, "💎".toList)])⟩
      = Except.ok [("111".toList, "💎".toList)] :=
  (load_prefixes_spec ⟨some none, some (some [("111".toList, "💎".toList)])⟩).2
    (Or.inr rfl) (by decide)

/-! ### Claim C5 -/

/-- Claim C5: for every store state on which `load_prefixes` succeeds with
mapping `m`, saving `m` and loading again yields exactly `m` — the save/load
pair round-trips the mapping (saving writes only the file, and a subsequent
load either re-reads the same environment value or reads back the file just
written). -/
theorem save_load_roundtrip (s : StoreState) (m : PrefixMapping)
    (h : load_prefixes s = Except.ok m) :
    load_prefixes (save_prefixes m s) = Except.ok m := by
  rcases s with ⟨env, file⟩
  rcases env with _ | (_ | me)
  · rfl
  · rfl
  · simp only [load_prefixes] at h
    exact h

/-- Witness for C5: store with no environment value and a file holding
`{"111": "💎"}` — load, save, load reproduces the mapping. -/
theorem save_load_roundtrip_witness :
    load_prefixes (save_prefixes [("111".toList, "💎".toList)]
        ⟨none, some (some [("111".toList, "💎".toList)])⟩)
      = Except.ok [("111".toList, "💎".toList)] :=
  save_load_roundtrip ⟨none, some (some [("111".toList, "💎".toList)])⟩
    [("111".toList, "💎".toList)] rfl

/-! ### Claim C6 -/

theorem lookup_eraseKey (P : PrefixMapping) (k : Str) :
    lookup (eraseKey P k) k = none := by
  induction P with
  | nil => rfl
  | cons p rest ih =>
    by_cases h : p.1 = k
    · simpa [eraseKey, List.filter_cons, h] using ih
    · simpa [eraseKey, List.filter_cons, h, lookup] using ih

/-- Claim C6: when the role's id is not a key of the mapping, `removeprefix`
leaves the mapping unchanged, does not persist, and replies with the
"no prefix" notice; when it is a key, the entry is deleted (the key no longer
resolves) and the mapping is persisted, with a confirmation naming the
role. -/
theorem removeprefix_spec (P : PrefixMapping) (role : Role) :
    (hasKey P (natKey role.id) = false →
      removeprefix P role = ⟨P, false, RemoveReply.noPrefixNotice⟩)
    ∧ (hasKey P (natKey role.id) = true →
      removeprefix P role
          = ⟨eraseKey P (natKey role.id), true, RemoveReply.removed role.name⟩
        ∧ lookup (eraseKey P (natKey role.id)) (natKey role.id) = none) := by
  constructor
  · intro h
    rw [ removeprefix, if_neg (by rw [h]; exact Bool.false_ne_true)]
  · intro h
    exact ⟨by rw [ removeprefix, if_pos h], lookup_eraseKey P (natKey role.id)⟩

/-- Witness for C6: removing the prefix of role 111 from a mapping whose only
key is "222" is a no-op that reports "no prefix". -/
theorem removeprefix_spec_witness :
    removeprefix [("222".toList, "x".toList)] ⟨111, "vip".toList, 5⟩
      = ⟨[("222".toList, "x".toList)], false, RemoveReply.noPrefixNotice⟩ :=
  (removeprefix_spec [("222".toList, "x".toList)] ⟨111, "vip".toList, 5⟩).1 (by decide)

/-! ### updateall lemmas (for C7 and C10) -/

theorem lookup_mem (P : PrefixMapping) (k v : Str) (h : lookup P k = some v) :
    (k, v) ∈ P := by
  induction P with
  | nil => simp [lookup] at h
  | cons p rest ih =>
    rcases p with ⟨k2, v2⟩
    rw [lookup] at h
    by_cases hk : k2 = k
    · rw [if_pos hk] at h
      rw [Option.some.injEq] at h
      rw [← hk, ← h]
      exact List.mem_cons_self _ _
    · rw [if_neg hk] at h
      exact List.mem_cons_of_mem _ (ih h)

theorem updateall_foldl (P : PrefixMapping) (edit : Member → Str → EditOutcome)
    (ms : List Member) :
    ∀ acc : List (Member × ApplyResult) × Nat,
      ms.foldl
        (fun acc mem =>
          match get_highest_display_role P mem with
          | none => acc
          | some role => (acc.1 ++ [(mem, apply_prefix P edit mem role)], acc.2 + 1))
        acc
      = (acc.1 ++ ms.filterMap (fun mem =>
            (get_highest_display_role P mem).map
              (fun role => (mem, apply_prefix P edit mem role))),
         acc.2 + (ms.filter
            (fun mem => (get_highest_display_role P mem).isSome)).length) := by
  induction ms with
  | nil => intro acc; simp
  | cons mem rest ih =>
    intro acc
    rw [List.foldl_cons, List.filterMap_cons, List.filter_cons]
    cases hm : get_highest_display_role P mem with
    | none =>
      simp only [hm, Option.map_none', Option.isSome_none, Bool.false_eq_true,
        if_false]
      exact ih acc
    | some role =>
      simp only [hm, Option.map_some', Option.isSome_some, if_true]
      rw [ih ((acc.1 ++ [(mem, apply_prefix P edit mem role)], acc.2 + 1))]
      rw [List.length_cons]
      rw [Prod.mk.injEq]
      constructor
      · rw [List.append_assoc]
        rfl
      · omega

theorem updateall_eq (P : PrefixMapping) (edit : Member → Str → EditOutcome)
    (ms : List Member) :
    updateall P edit ms
      = (ms.filterMap (fun mem =>
          (get_highest_display_role P mem).map
            (fun role => (mem, apply_prefix P edit mem role))),
         (ms.filter (fun mem => (get_highest_display_role P mem).isSome)).length) := by
  have h := updateall_foldl P edit ms ([], 0)
  rw [updateall, h]
  rw [List.nil_append]
  rw [Prod.mk.injEq]
  exact ⟨rfl, Nat.zero_add _⟩

/-! ### Claim C7 -/

/-- Claim C7: `updateall` attempts the composed nickname for exactly those
members that have a highest display role (the edit oracle is applied to the
composed nickname for each of them, in order), and the reported count is the
number of such members.  The hypothesis is the spec's data-model invariant
that configured prefixes are non-empty text. -/
theorem updateall_spec (P : PrefixMapping) (edit : Member → Str → EditOutcome)
    (ms : List Member) (hP : ∀ p ∈ P, p.2 ≠ ([] : Str)) :
    (updateall P edit ms).1
      = ms.filterMap (fun mem =>
          (get_highest_display_role P mem).bind (fun role =>
            (lookup P (natKey role.id)).map (fun pfx =>
              (mem, ApplyResult.attempted (composeNick mem.display_name pfx)
                  (edit mem (composeNick mem.display_name pfx))))))
    ∧ (updateall P edit ms).2
      = (ms.filter (fun mem => (get_highest_display_role P mem).isSome)).length := by
  rw [updateall_eq]
  refine ⟨?_, rfl⟩
  apply List.filterMap_congr
  intro mem _
  cases hm : get_highest_display_role P mem with
  | none => rfl
  | some role =>
    have hk : hasKey P (natKey role.id) = true :=
      (List.mem_filter.mp (get_highest_mem P mem role hm)).2
    rw [hasKey, Option.isSome_iff_exists] at hk
    obtain ⟨pfx, hpfx⟩ := hk
    have hne : pfx ≠ [] := hP (natKey role.id, pfx) (lookup_mem P _ pfx hpfx)
    rw [Option.map_some', Option.some_bind]
    simp [ apply_prefix, hpfx, hne]

/-- Witness for C7: the spec scenario — a guild of 3 members of whom 2 have
eligible roles reports count 2. -/
theorem updateall_spec_witness :
    (updateall [("111".toList, "💎".toList)] (fun _ _ => EditOutcome.success)
      [⟨[⟨111, "vip".toList, 5⟩], "A".toList⟩,
       ⟨[], "B".toList⟩,
       ⟨[⟨111, "vip".toList, 5⟩], "C".toList⟩]).2 = 2 := by
  rw [(updateall_spec [("111".toList, "💎".toList)] (fun _ _ => EditOutcome.success)
    [⟨[⟨111, "vip".toList, 5⟩], "A".toList⟩,
     ⟨[], "B".toList⟩,
     ⟨[⟨111, "vip".toList, 5⟩], "C".toList⟩] (by decide)).2]
  decide

/-! ### Claim C10 -/

/-- Claim C10 (implicit): the count `updateall` reports does not depend on the
outcomes of the nickname edits — `apply_prefix` catches permission-denied and
generic platform errors internally — so two arbitrary edit oracles yield the
same count, and that count always equals the number of members with an
eligible role. -/
theorem updateall_count_independent (P : PrefixMapping) (ms : List Member)
    (edit1 edit2 : Member → Str → EditOutcome) :
    (updateall P edit1 ms).2 = (updateall P edit2 ms).2
    ∧ (updateall P edit1 ms).2
      = (ms.filter (fun mem => (get_highest_display_role P mem).isSome)).length := by
  rw [updateall_eq, updateall_eq]
  exact ⟨rfl, rfl⟩

/-! ### Claim C8 -/

/-- Claim C8: on a role-change notification, if the role lists are equal no
nickname mutation happens; if no eligible (highest display) role is found the
nickname is never mutated (no proactive clearing on role loss); and when the
role lists differ and an active role with configured prefix exists, the
composed nickname is applied.  The hypothesis is the spec's data-model
invariant that configured prefixes are non-empty text. -/
theorem on_member_update_spec (P : PrefixMapping)
    (edit : Member → Str → EditOutcome) (before after : Member)
    (hP : ∀ p ∈ P, p.2 ≠ ([] : Str)) :
    (before.roles = after.roles → on_member_update P edit before after = none)
    ∧ (get_highest_display_role P after = none →
        on_member_update P edit before after = none)
    ∧ (∀ r pfx, before.roles ≠ after.roles →
        get_highest_display_role P after = some r →
        lookup P (natKey r.id) = some pfx →
        on_member_update P edit before after
          = some (ApplyResult.attempted (composeNick after.display_name pfx)
              (edit after (composeNick after.display_name pfx)))) := by
  refine ⟨?_, ?_, ?_⟩
  · intro h
    rw [on_member_update, if_pos h]
  · intro h
    by_cases hb : before.roles = after.roles
    · rw [on_member_update, if_pos hb]
    · rw [on_member_update, if_neg hb, h]
  · intro r pfx hne hr hl
    have hnep : pfx ≠ [] := hP (natKey r.id, pfx) (lookup_mem P _ pfx hl)
    rw [on_member_update, if_neg hne, hr]
    show some ( apply_prefix P edit after r) = _
    rw [ apply_prefix, hl]
    simp [hnep]

/-- Witness for C8: member gains role 111 (prefix "💎"); the handler applies
the composed nickname "💎 | Bob". -/
theorem on_member_update_spec_witness :
    on_member_update [("111".toList, "💎".toList)] (fun _ _ => EditOutcome.success)
      ⟨[], "Bob".toList⟩ ⟨[⟨111, "vip".toList, 5⟩], "Bob".toList⟩
      = some (ApplyResult.attempted "💎 | Bob".toList EditOutcome.success) := by
  rw [(on_member_update_spec [("111".toList, "💎".toList)]
      (fun _ _ => EditOutcome.success) ⟨[], "Bob".toList⟩
      ⟨[⟨111, "vip".toList, 5⟩], "Bob".toList⟩ (by decide)).2.2
    ⟨111, "vip".toList, 5⟩ "💎".toList (by decide) (by decide) (by decide)]
  decide

/-! ### Claim C9 -/

/-- Claim C9: for a menu selection carrying a role id, the callback performs
the nickname mutation exactly when, re-checked at interaction time, the role
exists in the guild, the invoking member still holds it, and it still has a
configured prefix; if any of the three checks fails the result is one of the
two ephemeral rejection notices and no mutation occurs.  The hypothesis is
the spec's data-model invariant that configured prefixes are non-empty
text. -/
theorem tagselect_callback_spec (P : PrefixMapping) (guild : Guild)
    (user : Member) (edit : Member → Str → EditOutcome) (co : EditOutcome)
    (rid : Nat) (hP : ∀ p ∈ P, p.2 ≠ ([] : Str)) :
    ((∃ nick oc, TagSelect.callback P (some guild) user edit co (Choice.crole rid)
        = CallbackResult.editedNick nick oc)
      ↔ ∃ role, guild.get_role rid = some role ∧ role ∈ user.roles
          ∧ hasKey P (natKey role.id) = true)
    ∧ ((¬ ∃ role, guild.get_role rid = some role ∧ role ∈ user.roles
          ∧ hasKey P (natKey role.id) = true) →
        TagSelect.callback P (some guild) user edit co (Choice.crole rid)
          = CallbackResult.rejectedRoleGone
        ∨ TagSelect.callback P (some guild) user edit co (Choice.crole rid)
          = CallbackResult.rejectedNotConfigured) := by
  have hcb : TagSelect.callback P (some guild) user edit co (Choice.crole rid)
      = match guild.get_role rid with
        | none => CallbackResult.rejectedRoleGone
        | some role =>
          if role ∈ user.roles then
            match lookup P (natKey role.id) with
            | none => CallbackResult.rejectedNotConfigured
            | some pfx =>
              if pfx = [] then CallbackResult.rejectedNotConfigured
              else CallbackResult.editedNick (composeNick user.display_name pfx)
                  (edit user (composeNick user.display_name pfx))
          else CallbackResult.rejectedRoleGone := rfl
  cases hg : guild.get_role rid with
  | none =>
    rw [hcb, hg]
    constructor
    · constructor
      · rintro ⟨nick, oc, h⟩
        exact absurd h (by simp)
      · rintro ⟨role, hrole, _⟩
        exact absurd hrole (by simp)
    · intro _
      exact Or.inl rfl
  | some role =>
    have hres : TagSelect.callback P (some guild) user edit co (Choice.crole rid)
        = if role ∈ user.roles then
            match lookup P (natKey role.id) with
            | none => CallbackResult.rejectedNotConfigured
            | some pfx =>
              if pfx = [] then CallbackResult.rejectedNotConfigured
              else CallbackResult.editedNick (composeNick user.display_name pfx)
                  (edit user (composeNick user.display_name pfx))
          else CallbackResult.rejectedRoleGone := by
      rw [hcb, hg]
    by_cases hmem : role ∈ user.roles
    · rw [if_pos hmem] at hres
      cases hl : lookup P (natKey role.id) with
      | none =>
        rw [hl] at hres
        have hres2 : TagSelect.callback P (some guild) user edit co (Choice.crole rid)
            = CallbackResult.rejectedNotConfigured := hres
        rw [hres2]
        constructor
        · constructor
          · rintro ⟨nick, oc, h⟩
            exact absurd h (by simp)
          · rintro ⟨role2, hrole2, _, hk2⟩
            rw [Option.some.injEq] at hrole2
            rw [← hrole2, hasKey, hl] at hk2
            exact absurd hk2 (by simp)
        · intro _
          exact Or.inr rfl
      | some pfx =>
        rw [hl] at hres
        have hnep : pfx ≠ [] := hP (natKey role.id, pfx) (lookup_mem P _ pfx hl)
        have hres2 : TagSelect.callback P (some guild) user edit co (Choice.crole rid)
            = if pfx = [] then CallbackResult.rejectedNotConfigured
              else CallbackResult.editedNick (composeNick user.display_name pfx)
                  (edit user (composeNick user.display_name pfx)) := hres
        rw [if_neg hnep] at hres2
        rw [hres2]
        constructor
        · constructor
          · intro _
            exact ⟨role, rfl, hmem, by rw [hasKey, hl]; rfl⟩
          · intro _
            exact ⟨composeNick user.display_name pfx,
              edit user (composeNick user.display_name pfx), rfl⟩
        · intro hno
          exact absurd ⟨role, rfl, hmem, by rw [hasKey, hl]; rfl⟩ hno
    · rw [if_neg hmem] at hres
      rw [hres]
      constructor
      · constructor
        · rintro ⟨nick, oc, h⟩
          exact absurd h (by simp)
        · rintro ⟨role2, hrole2, hmem2, _⟩
          rw [Option.some.injEq] at hrole2
          rw [← hrole2] at hmem2
          exact absurd hmem2 hmem
      · intro _
        exact Or.inl rfl

/-- Witness for C9: role 111 exists in the guild, the user holds it, and it
has the configured prefix "💎" — the callback performs the nickname
mutation. -/
theorem tagselect_callback_spec_witness :
    ∃ nick oc, TagSelect.callback [("111".toList, "💎".toList)]
        (some ⟨[⟨111, "vip".toList, 5⟩]⟩)
        ⟨[⟨111, "vip".toList, 5⟩], "Bob".toList⟩
        (fun _ _ => EditOutcome.success) EditOutcome.success (Choice.crole 111)
      = CallbackResult.editedNick nick oc :=
  (tagselect_callback_spec [("111".toList, "💎".toList)]
      ⟨[⟨111, "vip".toList, 5⟩]⟩ ⟨[⟨111, "vip".toList, 5⟩], "Bob".toList⟩
      (fun _ _ => EditOutcome.success) EditOutcome.success 111 (by decide)).1.mpr
    ⟨⟨111, "vip".toList, 5⟩, by decide, by decide, by decide⟩

end PrefixBot
